import Mathlib

/-!
# RLE+ container (`rle/rleplus.go`, package `rlepluslazy`)

Shallow embedding of the container type `RLE` and of its methods `FromBuf`,
`Bytes`, `Validate`, `RunIterator`, `Count`, `MarshalJSON`, `UnmarshalJSON`.

Conventions.
* A byte buffer is a `List Nat`; a `uint64` is a `Nat` (the only arithmetic on
  `uint64` values is the sum computed by `Count`, which is reduced mod `2^64`).
* A Go `error` result is an `Option Err` (`none` is `nil`); a Go pair
  `(T, error)` is an `Except Err T`.
* The codec engine (`ValidateRLE`, `DecodeRLE`, `EncodeRuns`) lives in other
  files of the package; it is a parameter `Engine` of every method.
* Methods have pointer receivers. Each one returns a `Ret`: the returned
  values, the receiver as it is after the call, and the list of engine calls
  the method made, in order.
* `encoding/json` is a library: `MarshalJSON` returns the `jsonRes` value it
  hands to `json.Marshal`, and `UnmarshalJSON` receives the outcome of
  `json.Unmarshal(b, &buf)`.
-/

namespace rlepluslazy

/-- Supported format version: `const Version = 0`. -/
def Version : Nat := 0

/-- Go error values: the two package sentinels, `xerrors.New(msg)`,
`xerrors.Errorf("msg: %w", cause)`, and errors raised by the codec engine or by
`encoding/json`, identified by a code. -/
inductive Err where
  | ErrWrongVersion : Err
  | ErrDecode : Err
  | ErrEndOfIterator : Err
  | new (msg : String) : Err
  | wrap (msg : String) (cause : Err) : Err
  | engine (code : Nat) : Err
  deriving DecidableEq, Repr

/-- The chain test `errors.Is(e, target)`: `target` is `e` or is wrapped by it. -/
def Err.Is : Err → Err → Bool
  | .wrap msg cause, target => decide (Err.wrap msg cause = target) || Err.Is cause target
  | e, target => decide (e = target)

/-- Modelled from the spec: the type `Run` is declared in another file of the
package; it is the value pair (boolean, length) with a `uint64` length. -/
structure Run where
  Val : Bool
  Len : Nat
  deriving DecidableEq, Repr

/-- Modelled from the spec: the in-memory run iterator, declared in another file
of the package: a forward-only cursor over an ordered sequence of `Run`;
`Runs` holds the runs not yet consumed. -/
structure RunSliceIterator where
  Runs : List Run
  deriving DecidableEq, Repr

/-- Modelled from the spec: the interface `RunIterator` (declared in another
file of the package) is a producer of a finite ordered sequence of `Run`; both
of its variants are cursors over such a sequence. -/
abbrev RunIterator := RunSliceIterator

/-- Modelled from the spec: `HasNext` reports whether unconsumed runs remain. -/
def RunSliceIterator.HasNext (it : RunSliceIterator) : Bool :=
  !it.Runs.isEmpty

/-- Modelled from the spec: `NextRun` returns the next run and advances, and
fails when no runs remain. -/
def RunSliceIterator.NextRun (it : RunSliceIterator) : Except Err (Run × RunSliceIterator) :=
  match it.Runs with
  | [] => .error Err.ErrEndOfIterator
  | r :: rest => .ok (r, ⟨rest⟩)

/-- Modelled from the spec: the package-level helper `Count(it)` is in another
file; it sums the lengths of all runs whose value is true and returns the total
as an unsigned 64-bit count. -/
def Count (it : RunIterator) : Except Err Nat :=
  .ok (((it.Runs.filter (fun r => r.Val)).map (fun r => r.Len)).sum % 2 ^ 64)

/-- The codec engine: the three package functions the container calls. -/
structure Engine where
  ValidateRLE : List Nat → Option Err
  DecodeRLE : List Nat → Except Err RunIterator
  EncodeRuns : RunIterator → List Nat → Except Err (List Nat)

/-- One invocation of a codec engine function, with its arguments. -/
inductive Call where
  | ValidateRLE (buf : List Nat) : Call
  | DecodeRLE (buf : List Nat) : Call
  | EncodeRuns (runs : List Run) (init : List Nat) : Call
  deriving DecidableEq, Repr

/-- The struct `RLE`. -/
structure RLE where
  buf : List Nat
  validated : Bool
  deriving DecidableEq, Repr

/-- Outcome of a method call on a `*RLE` receiver. -/
structure Ret (α : Type) where
  out : α
  rle : RLE
  calls : List Call

/-- The function `FromBuf`. -/
def FromBuf (buf : List Nat) : Except Err RLE :=
  let rle : RLE := { buf := buf, validated := false }
  if buf.length > 0 ∧ buf.headD 0 &&& 3 ≠ Version then
    .error (Err.wrap "could not create RLE+ for a buffer" Err.ErrWrongVersion)
  else
    .ok rle

/-- The method `Bytes`. -/
def RLE.Bytes (rle : RLE) : Ret (List Nat) :=
  ⟨rle.buf, rle, []⟩

/-- The method `Validate`. -/
def RLE.Validate (E : Engine) (rle : RLE) : Ret (Option Err) :=
  if !rle.validated then
    ⟨E.ValidateRLE rle.buf, rle, [Call.ValidateRLE rle.buf]⟩
  else
    ⟨none, rle, []⟩

/-- The method `RunIterator`. -/
def RLE.RunIterator (E : Engine) (rle : RLE) : Ret (Except Err RunIterator) :=
  let v := rle.Validate E
  match v.out with
  | some err => ⟨.error (Err.wrap "validation failed" err), v.rle, v.calls⟩
  | none =>
    match E.DecodeRLE v.rle.buf with
    | .error err =>
      ⟨.error (Err.wrap "decoding RLE" err), v.rle, v.calls ++ [Call.DecodeRLE v.rle.buf]⟩
    | .ok source => ⟨.ok source, v.rle, v.calls ++ [Call.DecodeRLE v.rle.buf]⟩

/-- The method `Count`. -/
def RLE.Count (E : Engine) (rle : RLE) : Ret (Except Err Nat) :=
  let ri := rle.RunIterator E
  match ri.out with
  | .error err => ⟨.error err, ri.rle, ri.calls⟩
  | .ok it => ⟨rlepluslazy.Count it, ri.rle, ri.calls⟩

/-- The struct `jsonRes`. -/
structure jsonRes where
  Count : Nat
  RLE : List Nat
  deriving DecidableEq, Repr

/-- The inner loop of `MarshalJSON`:
`for r.HasNext() { next, err := r.NextRun(); ...; ret.RLE = append(ret.RLE, next.Len) }`. -/
def marshalLoop (r : RunIterator) (acc : List Nat) : Except Err (List Nat) :=
  if r.HasNext then
    match h : r.NextRun with
    | .error err => .error err
    | .ok (next, r') => marshalLoop r' (acc ++ [next.Len])
  else
    .ok acc
termination_by r.Runs.length
decreasing_by
  cases r with
  | mk runs =>
    cases runs with
    | nil => simp [RunSliceIterator.NextRun] at h
    | cons a rest =>
      simp only [RunSliceIterator.NextRun, Except.ok.injEq, Prod.mk.injEq] at h
      obtain ⟨-, rfl⟩ := h
      simp

/-- The body of `MarshalJSON` between `var ret = jsonRes{}` and
`ret.Count = count`: the array `ret.RLE`. -/
def marshalRLE (r : RunIterator) : Except Err (List Nat) :=
  if r.HasNext then
    match r.NextRun with
    | .error err => .error err
    | .ok (first, r') =>
      let ret := if first.Val then [0] else []
      let ret := ret ++ [first.Len]
      marshalLoop r' ret
  else
    .ok [0]

/-- The method `MarshalJSON`; the result is the value handed to `json.Marshal`. -/
def RLE.MarshalJSON (E : Engine) (rle : RLE) : Ret (Except Err jsonRes) :=
  let ri := rle.RunIterator E
  match ri.out with
  | .error err => ⟨.error err, ri.rle, ri.calls⟩
  | .ok r =>
    let c := ri.rle.Count E
    match c.out with
    | .error err => ⟨.error err, c.rle, ri.calls ++ c.calls⟩
    | .ok count =>
      match marshalRLE r with
      | .error err => ⟨.error err, c.rle, ri.calls ++ c.calls⟩
      | .ok arr => ⟨.ok { Count := count, RLE := arr }, c.rle, ri.calls ++ c.calls⟩

/-- The loop of `UnmarshalJSON`, `for i, v := range buf.RLE`, from index `i` with
the flag `val` and the runs built so far. -/
def unmarshalLoop : List Nat → Nat → Bool → List Run → Except Err (List Run)
  | [], _, _, runs => .ok runs
  | v :: rest, i, val, runs =>
    if v = 0 then
      if i ≠ 0 then
        .error (Err.new "Cannot have a zero-length run except at start")
      else
        unmarshalLoop rest (i + 1) (!val) runs
    else
      unmarshalLoop rest (i + 1) (!val) (runs ++ [{ Val := val, Len := v }])

/-- The method `UnmarshalJSON`; `parsed` is the outcome of
`json.Unmarshal(b, &buf)`. -/
def RLE.UnmarshalJSON (E : Engine) (parsed : Except Err jsonRes) (rle : RLE) :
    Ret (Option Err) :=
  match parsed with
  | .error err => ⟨some err, rle, []⟩
  | .ok buf =>
    match unmarshalLoop buf.RLE 0 false [] with
    | .error err => ⟨some err, rle, []⟩
    | .ok runs =>
      match E.EncodeRuns ⟨runs⟩ [] with
      | .error err => ⟨some (Err.wrap "encoding runs" err), rle, [Call.EncodeRuns runs []]⟩
      | .ok enc => ⟨none, { rle with buf := enc }, [Call.EncodeRuns runs []]⟩

/-! ## Specification vocabulary -/

/-- The error `UnmarshalJSON` raises for a zero entry that is not the first. -/
def ErrZeroRun : Err :=
  Err.new "Cannot have a zero-length run except at start"

/-- The set represented by a run sequence whose first run starts at position
`offset`: the union of `[offset, offset + length)` over the runs whose value is
true, each run starting where the previous one ends. -/
def positionsFrom : Nat → List Run → Finset Nat
  | _, [] => ∅
  | offset, r :: rest =>
    (if r.Val then Finset.Ico offset (offset + r.Len) else ∅) ∪
      positionsFrom (offset + r.Len) rest

/-- The set of true positions represented by a run sequence. -/
def positions (runs : List Run) : Finset Nat :=
  positionsFrom 0 runs

/-- Sum of the lengths of the runs whose value is true. -/
def trueLenSum (runs : List Run) : Nat :=
  ((runs.filter (fun r => r.Val)).map (fun r => r.Len)).sum

/-- Boolean test: every two adjacent runs have different values. -/
def alternatingB : List Run → Bool
  | [] => true
  | [_] => true
  | a :: b :: rest => (a.Val != b.Val) && alternatingB (b :: rest)

/-- Values strictly alternate along the run sequence. -/
def Alternating (runs : List Run) : Prop :=
  alternatingB runs = true

instance (runs : List Run) : Decidable (Alternating runs) :=
  inferInstanceAs (Decidable (alternatingB runs = true))

/-- The array has a `0` entry at an index greater than `0`. -/
def hasInnerZero (arr : List Nat) : Prop :=
  0 ∈ arr.tail

instance (arr : List Nat) : Decidable (hasInnerZero arr) :=
  inferInstanceAs (Decidable (0 ∈ arr.tail))

/-- One run per non-zero entry of the array: the entry `v` at index `i` gives
the run with value `i is odd` and length `v`. -/
def runsOfRLE (arr : List Nat) : List Run :=
  ((arr.enum.filter (fun p => p.2 ≠ 0)).map
    (fun p => ({ Val := decide (p.1 % 2 = 1), Len := p.2 } : Run)))

/-- Runs with alternating values starting from `val`, one per entry. -/
def runsFrom : Bool → List Nat → List Run
  | _, [] => []
  | val, v :: rest => { Val := val, Len := v } :: runsFrom (!val) rest

/-- Sum of the entries of the array at the odd indices 1, 3, 5, ... -/
def oddIndexSum : List Nat → Nat
  | [] => 0
  | [_] => 0
  | _ :: b :: rest => b + oddIndexSum rest

/-! ## A test double of the codec engine

Each run is stored as two bytes, the value flag and the length. -/

/-- Encoder of the test double. -/
def testEncodeRuns : List Run → List Nat
  | [] => []
  | r :: rest => (if r.Val then 1 else 0) :: r.Len :: testEncodeRuns rest

/-- Decoder of the test double; a buffer of odd length is malformed. -/
def testDecodeRuns : List Nat → Except Err (List Run)
  | [] => .ok []
  | [_] => .error Err.ErrDecode
  | v :: l :: rest =>
    match testDecodeRuns rest with
    | .error err => .error err
    | .ok runs => .ok ({ Val := decide (v = 1), Len := l } :: runs)

/-- The test double. -/
def testEngine : Engine where
  ValidateRLE := fun buf =>
    match testDecodeRuns buf with
    | .error err => some err
    | .ok _ => none
  DecodeRLE := fun buf =>
    match testDecodeRuns buf with
    | .error err => .error err
    | .ok runs => .ok ⟨runs⟩
  EncodeRuns := fun it init => .ok (init ++ testEncodeRuns it.Runs)

/-- A test double whose encoder always fails, with the engine error 1. -/
def failingEncoderEngine : Engine where
  ValidateRLE := testEngine.ValidateRLE
  DecodeRLE := testEngine.DecodeRLE
  EncodeRuns := fun _ _ => .error (Err.engine 1)

/-! ## Lemmas on the loops -/

theorem hasInnerZero_iff_index (arr : List Nat) :
    hasInnerZero arr ↔ ∃ i, 0 < i ∧ arr[i]? = some 0 := by
  unfold hasInnerZero
  cases arr with
  | nil => simp
  | cons a rest =>
    simp only [List.tail_cons, List.mem_iff_getElem?]
    constructor
    · rintro ⟨n, hn⟩
      exact ⟨n + 1, Nat.succ_pos n, by simpa using hn⟩
    · rintro ⟨i, hi, h⟩
      obtain ⟨k, rfl⟩ : ∃ k, i = k + 1 := ⟨i - 1, by omega⟩
      exact ⟨k, by simpa using h⟩

theorem testEngine_decode_encode (runs : List Run) :
    testDecodeRuns (testEncodeRuns runs) = .ok runs := by
  induction runs with
  | nil => rfl
  | cons r rest ih =>
    obtain ⟨v, l⟩ := r
    cases v <;> simp [testEncodeRuns, testDecodeRuns, ih]

theorem marshalLoop_eq (runs : List Run) (acc : List Nat) :
    marshalLoop ⟨runs⟩ acc = .ok (acc ++ runs.map (fun r => r.Len)) := by
  induction runs generalizing acc with
  | nil =>
    rw [marshalLoop]
    simp [RunSliceIterator.HasNext]
  | cons r rest ih =>
    rw [marshalLoop]
    simp [RunSliceIterator.HasNext, RunSliceIterator.NextRun, ih]

theorem marshalRLE_nil : marshalRLE ⟨[]⟩ = .ok [0] := by
  simp [marshalRLE, RunSliceIterator.HasNext]

theorem marshalRLE_cons (r : Run) (rest : List Run) :
    marshalRLE ⟨r :: rest⟩ =
      .ok ((if r.Val then [0] else []) ++ (r :: rest).map (fun r => r.Len)) := by
  simp [marshalRLE, RunSliceIterator.HasNext, RunSliceIterator.NextRun, marshalLoop_eq]

/-! ## Lemmas on the read path -/

theorem Validate_rle (E : Engine) (rle : RLE) : (rle.Validate E).rle = rle := by
  unfold RLE.Validate
  split <;> rfl

theorem RunIterator_ok (E : Engine) (rle : RLE) (it : RunIterator)
    (hv : (rle.Validate E).out = none) (hd : E.DecodeRLE rle.buf = .ok it) :
    (rle.RunIterator E).out = .ok it ∧ (rle.RunIterator E).rle = rle := by
  have hr := Validate_rle E rle
  simp only [RLE.RunIterator, hv, hr, hd, and_self]

theorem Count_ok (E : Engine) (rle : RLE) (it : RunIterator)
    (hv : (rle.Validate E).out = none) (hd : E.DecodeRLE rle.buf = .ok it) :
    (rle.Count E).out = .ok (trueLenSum it.Runs % 2 ^ 64) ∧ (rle.Count E).rle = rle := by
  obtain ⟨h1, h2⟩ := RunIterator_ok E rle it hv hd
  simp only [RLE.Count, h1, h2, Count, trueLenSum, and_self]

theorem MarshalJSON_ok (E : Engine) (rle : RLE) (runs : List Run) (arr : List Nat)
    (hv : (rle.Validate E).out = none) (hd : E.DecodeRLE rle.buf = .ok ⟨runs⟩)
    (ha : marshalRLE ⟨runs⟩ = .ok arr) :
    (rle.MarshalJSON E).out = .ok { Count := trueLenSum runs % 2 ^ 64, RLE := arr } ∧
      (rle.MarshalJSON E).rle = rle := by
  obtain ⟨h1, h2⟩ := RunIterator_ok E rle _ hv hd
  obtain ⟨h3, h4⟩ := Count_ok E rle _ hv hd
  simp only [RLE.MarshalJSON, h1, h2, h3, h4, ha, and_self]

/-! ## Lemmas on the loop of `UnmarshalJSON` -/

theorem unmarshalLoop_nonzero (l : List Nat) (i : Nat) (val : Bool) (acc : List Run)
    (h : 0 ∉ l) : unmarshalLoop l i val acc = .ok (acc ++ runsFrom val l) := by
  induction l generalizing i val acc with
  | nil => simp [unmarshalLoop, runsFrom]
  | cons v rest ih =>
    have hv : v ≠ 0 := fun hv => h (by simp [hv])
    have hr : 0 ∉ rest := fun hr => h (by simp [hr])
    simp [unmarshalLoop, hv, ih _ _ _ hr, runsFrom]

theorem unmarshalLoop_zero (l : List Nat) (i : Nat) (val : Bool) (acc : List Run)
    (h : 0 ∈ l) (hi : i ≠ 0) : unmarshalLoop l i val acc = .error ErrZeroRun := by
  induction l generalizing i val acc with
  | nil => simp at h
  | cons v rest ih =>
    by_cases hv : v = 0
    · simp [unmarshalLoop, hv, hi, ErrZeroRun]
    · have hr : 0 ∈ rest := by
        rcases List.mem_cons.1 h with h0 | h0
        · exact absurd h0.symm hv
        · exact h0
      simp [unmarshalLoop, hv, ih _ _ _ hr (Nat.succ_ne_zero i)]

theorem unmarshalLoop_head (v : Nat) (rest : List Nat) :
    unmarshalLoop (v :: rest) 0 false [] =
      unmarshalLoop rest 1 true (if v = 0 then [] else [{ Val := false, Len := v }]) := by
  by_cases hv : v = 0 <;> simp [unmarshalLoop, hv]

theorem enumFrom_runs (l : List Nat) (i : Nat) (h : 0 ∉ l) :
    ((l.enumFrom i).filter (fun p => p.2 ≠ 0)).map
        (fun p => ({ Val := decide (p.1 % 2 = 1), Len := p.2 } : Run)) =
      runsFrom (decide (i % 2 = 1)) l := by
  induction l generalizing i with
  | nil => simp [runsFrom]
  | cons v rest ih =>
    have hv : v ≠ 0 := fun hv => h (by simp [hv])
    have hr : 0 ∉ rest := fun hr => h (by simp [hr])
    have hp : (!decide (i % 2 = 1)) = decide ((i + 1) % 2 = 1) := by
      rcases Nat.mod_two_eq_zero_or_one i with h0 | h0 <;> simp [h0, Nat.add_mod]
    have ih1 := ih (i + 1) hr
    simp only [ne_eq, decide_not] at ih1 ⊢
    simp [List.enumFrom_cons, hv, ih1, runsFrom, hp]

theorem unmarshalLoop_accept (arr : List Nat) (h : ¬ hasInnerZero arr) :
    unmarshalLoop arr 0 false [] = .ok (runsOfRLE arr) := by
  cases arr with
  | nil => simp [unmarshalLoop, runsOfRLE]
  | cons v rest =>
    have hr : 0 ∉ rest := h
    rw [unmarshalLoop_head, unmarshalLoop_nonzero _ _ _ _ hr]
    have he := enumFrom_runs rest 1 hr
    simp only [ne_eq, decide_not] at he
    by_cases hv : v = 0
    · simp [runsOfRLE, List.enum, List.enumFrom_cons, hv, he]
    · simp [runsOfRLE, List.enum, List.enumFrom_cons, hv, he]

theorem unmarshalLoop_reject (arr : List Nat) (h : hasInnerZero arr) :
    unmarshalLoop arr 0 false [] = .error ErrZeroRun := by
  cases arr with
  | nil => simp [hasInnerZero] at h
  | cons v rest =>
    rw [unmarshalLoop_head]
    exact unmarshalLoop_zero _ _ _ _ h (by decide)

/-! ## Lemmas on the represented set -/

theorem positionsFrom_ge (runs : List Run) (offset x : Nat)
    (h : x ∈ positionsFrom offset runs) : offset ≤ x := by
  induction runs generalizing offset with
  | nil => simp [positionsFrom] at h
  | cons r rest ih =>
    simp only [positionsFrom, Finset.mem_union] at h
    rcases h with h | h
    · split at h
      · exact (Finset.mem_Ico.1 h).1
      · simp at h
    · have := ih _ h
      omega

theorem card_positionsFrom (runs : List Run) (offset : Nat) :
    (positionsFrom offset runs).card = trueLenSum runs := by
  induction runs generalizing offset with
  | nil => simp [positionsFrom, trueLenSum]
  | cons r rest ih =>
    have hdisj : Disjoint
        (if r.Val then Finset.Ico offset (offset + r.Len) else ∅)
        (positionsFrom (offset + r.Len) rest) := by
      rw [Finset.disjoint_left]
      intro x hx hx2
      have h2 := positionsFrom_ge _ _ _ hx2
      split at hx
      · have h1 := (Finset.mem_Ico.1 hx).2
        omega
      · simp at hx
    rw [positionsFrom, Finset.card_union_of_disjoint hdisj, ih]
    cases hval : r.Val <;> simp [trueLenSum, hval, List.filter_cons]

theorem zero_mem_positions_cons (r : Run) (rest : List Run) (hlen : 1 ≤ r.Len) :
    0 ∈ positions (r :: rest) ↔ r.Val = true := by
  unfold positions
  simp only [positionsFrom, Finset.mem_union]
  constructor
  · rintro (h | h)
    · by_contra hval
      simp [hval] at h
    · have := positionsFrom_ge _ _ _ h
      omega
  · intro hval
    left
    simp [hval]
    omega

theorem runsFrom_map_len (x : List Run) (val : Bool) (halt : Alternating x)
    (hhead : ∀ r ∈ x.head?, r.Val = val) :
    runsFrom val (x.map (fun r => r.Len)) = x := by
  induction x generalizing val with
  | nil => rfl
  | cons r rest ih =>
    have hr : r.Val = val := hhead r (by simp)
    have halt2 : Alternating rest := by
      cases rest with
      | nil => rfl
      | cons q rest2 =>
        simp only [Alternating, alternatingB, Bool.and_eq_true] at halt
        exact halt.2
    have hnext : ∀ q ∈ rest.head?, q.Val = !val := by
      intro q hq
      cases rest with
      | nil => simp at hq
      | cons q2 rest2 =>
        simp only [List.head?_cons, Option.mem_def, Option.some.injEq] at hq
        subst hq
        simp only [Alternating, alternatingB, Bool.and_eq_true, bne_iff_ne, ne_eq] at halt
        have hrel := halt.1
        rw [hr] at hrel
        cases hq2 : q2.Val <;> cases hv : val <;> simp_all
    obtain ⟨v, l⟩ := r
    simp only at hr
    simp [runsFrom, ih _ halt2 hnext, hr]

theorem unmarshal_marshalRLE (x : List Run) (halt : Alternating x)
    (hlen : ∀ r ∈ x, 1 ≤ r.Len) :
    ∃ arr, marshalRLE ⟨x⟩ = .ok arr ∧ ¬ hasInnerZero arr ∧ arr ≠ [] ∧
      unmarshalLoop arr 0 false [] = .ok x := by
  have hz : 0 ∉ x.map (fun r => r.Len) := by
    intro h
    obtain ⟨r, hr, h0⟩ := List.mem_map.1 h
    have := hlen r hr
    omega
  cases x with
  | nil =>
    refine ⟨[0], marshalRLE_nil, by decide, by simp, ?_⟩
    simp [unmarshalLoop]
  | cons r rest =>
    refine ⟨_, marshalRLE_cons r rest, ?_, ?_, ?_⟩
    · cases hval : r.Val
      · simp only [hasInnerZero, Bool.false_eq_true, if_false, List.nil_append, List.map_cons,
          List.tail_cons]
        intro h
        exact hz (by simp [h])
      · simpa [hasInnerZero] using hz
    · cases hval : r.Val <;> simp
    · cases hval : r.Val
      · have hx := runsFrom_map_len (r :: rest) false halt (by simp [hval])
        simp only [Bool.false_eq_true, if_false, List.nil_append]
        rw [unmarshalLoop_nonzero _ _ _ _ hz]
        simpa using hx
      · have hx := runsFrom_map_len (r :: rest) true halt (by simp [hval])
        simp only [if_true, List.singleton_append]
        rw [unmarshalLoop_head, unmarshalLoop_nonzero _ _ _ _ hz]
        simpa using hx

theorem map_len_runsFrom (l : List Nat) (val : Bool) :
    (runsFrom val l).map (fun r => r.Len) = l := by
  induction l generalizing val with
  | nil => rfl
  | cons v rest ih => simp [runsFrom, ih]

theorem trueLenSum_cons (r : Run) (rest : List Run) :
    trueLenSum (r :: rest) = (if r.Val then r.Len else 0) + trueLenSum rest := by
  cases hval : r.Val <;> simp [trueLenSum, hval, List.filter_cons]

theorem trueLenSum_runsFrom (l : List Nat) :
    trueLenSum (runsFrom false l) = oddIndexSum l ∧
      trueLenSum (runsFrom true l) = l.headD 0 + oddIndexSum l.tail := by
  induction l with
  | nil => simp [runsFrom, trueLenSum, oddIndexSum]
  | cons v rest ih =>
    obtain ⟨ih1, ih2⟩ := ih
    constructor
    · rw [runsFrom, trueLenSum_cons]
      simp only [Bool.not_false, Bool.false_eq_true, if_false, Nat.zero_add, ih2]
      cases rest <;> simp [oddIndexSum]
    · rw [runsFrom, trueLenSum_cons]
      simp [ih1]

theorem runsOfRLE_cons (v : Nat) (rest : List Nat) (h : 0 ∉ rest) :
    runsOfRLE (v :: rest) =
      (if v = 0 then [] else [{ Val := false, Len := v }]) ++ runsFrom true rest := by
  have h1 := unmarshalLoop_accept (v :: rest) h
  rw [unmarshalLoop_head, unmarshalLoop_nonzero _ _ _ _ h] at h1
  exact (Except.ok.inj h1).symm

theorem marshalRLE_runsOfRLE (arr : List Nat) (h : ¬ hasInnerZero arr) (hne : arr ≠ []) :
    marshalRLE ⟨runsOfRLE arr⟩ = .ok arr ∧ trueLenSum (runsOfRLE arr) = oddIndexSum arr := by
  cases arr with
  | nil => exact absurd rfl hne
  | cons v rest =>
    have hr : 0 ∉ rest := h
    rw [runsOfRLE_cons v rest hr]
    by_cases hv : v = 0
    · subst hv
      have hs := (trueLenSum_runsFrom (0 :: rest)).1
      rw [runsFrom, trueLenSum_cons] at hs
      simp only [Bool.false_eq_true, if_false, Nat.zero_add, Bool.not_false] at hs
      refine ⟨?_, by simpa using hs⟩
      cases rest with
      | nil => simp [runsFrom, marshalRLE_nil]
      | cons w rest2 =>
        simp only [if_true, List.nil_append, runsFrom]
        rw [marshalRLE_cons]
        simp [map_len_runsFrom]
    · have hs := (trueLenSum_runsFrom (v :: rest)).1
      rw [runsFrom] at hs
      simp only [hv, if_false, List.singleton_append, Bool.not_false] at hs ⊢
      refine ⟨?_, hs⟩
      rw [marshalRLE_cons]
      simp [map_len_runsFrom]

/-! ## The claims -/

/-- C1: for a valid run sequence `x` (values strictly alternating, every length
at least 1) decoded from a validated container, assuming the codec engine
decodes a buffer it encoded back to the same run sequence, the runs that
`UnmarshalJSON` rebuilds from the array `MarshalJSON` emits are handed to the
encoder, equal `x`, and the refilled container decodes to runs that represent
the same set of true positions as `x`. -/
theorem marshal_unmarshal_same_set (E : Engine) (rle rle2 : RLE) (x : List Run)
    (hrt : ∀ runs enc, E.EncodeRuns ⟨runs⟩ [] = .ok enc → E.DecodeRLE enc = .ok ⟨runs⟩)
    (hv : (rle.Validate E).out = none) (hd : E.DecodeRLE rle.buf = .ok ⟨x⟩)
    (halt : Alternating x) (hlen : ∀ r ∈ x, 1 ≤ r.Len) :
    ∃ j y, (rle.MarshalJSON E).out = .ok j ∧
      (rle2.UnmarshalJSON E (.ok j)).calls = [Call.EncodeRuns y []] ∧
      y = x ∧ positions y = positions x ∧
      ∀ enc, E.EncodeRuns ⟨y⟩ [] = .ok enc →
        (rle2.UnmarshalJSON E (.ok j)).out = none ∧
        ∃ z, E.DecodeRLE (rle2.UnmarshalJSON E (.ok j)).rle.buf = .ok ⟨z⟩ ∧
          positions z = positions x := by
  obtain ⟨arr, ha, -, -, hu⟩ := unmarshal_marshalRLE x halt hlen
  obtain ⟨hm, -⟩ := MarshalJSON_ok E rle x arr hv hd ha
  refine ⟨_, x, hm, ?_, rfl, rfl, ?_⟩
  · simp only [RLE.UnmarshalJSON, hu]
    split <;> rfl
  · intro enc henc
    simp only [RLE.UnmarshalJSON, hu, henc, true_and]
    exact ⟨x, hrt x enc henc, rfl⟩

theorem marshal_unmarshal_same_set_witness :
    ∃ j y, (RLE.MarshalJSON testEngine ⟨[1, 3, 0, 5, 1, 2], false⟩).out = .ok j ∧
      (RLE.UnmarshalJSON testEngine (.ok j) ⟨[], false⟩).calls = [Call.EncodeRuns y []] ∧
      y = [⟨true, 3⟩, ⟨false, 5⟩, ⟨true, 2⟩] ∧
      positions y = positions [⟨true, 3⟩, ⟨false, 5⟩, ⟨true, 2⟩] ∧
      ∀ enc, testEngine.EncodeRuns ⟨y⟩ [] = .ok enc →
        (RLE.UnmarshalJSON testEngine (.ok j) ⟨[], false⟩).out = none ∧
        ∃ z, testEngine.DecodeRLE
            (RLE.UnmarshalJSON testEngine (.ok j) ⟨[], false⟩).rle.buf = .ok ⟨z⟩ ∧
          positions z = positions [⟨true, 3⟩, ⟨false, 5⟩, ⟨true, 2⟩] :=
  marshal_unmarshal_same_set testEngine ⟨[1, 3, 0, 5, 1, 2], false⟩ ⟨[], false⟩
    [⟨true, 3⟩, ⟨false, 5⟩, ⟨true, 2⟩]
    (by
      intro runs enc h
      simp only [testEngine, List.nil_append, Except.ok.injEq] at h
      subst h
      simp [testEngine, testEngine_decode_encode])
    rfl rfl (by decide) (by decide)

/-- C2, refuted as stated: the JSON value with `Count = 7` and `RLE = [3]` is
accepted by `UnmarshalJSON` (no zero entry past index 0; the test engine
validates the encoded buffer and decodes it back to the run `(false, 3)`), yet
`MarshalJSON` on the filled container yields `Count = 0`; and the value with
`Count = 0` and the empty array comes back with `RLE = [0]`. -/
theorem unmarshal_marshal_not_identity :
    (¬ hasInnerZero [3] ∧
      (RLE.UnmarshalJSON testEngine (.ok ⟨7, [3]⟩) ⟨[], false⟩).out = none ∧
      testEngine.DecodeRLE (RLE.UnmarshalJSON testEngine (.ok ⟨7, [3]⟩) ⟨[], false⟩).rle.buf =
        .ok ⟨[⟨false, 3⟩]⟩ ∧
      (RLE.MarshalJSON testEngine
        (RLE.UnmarshalJSON testEngine (.ok ⟨7, [3]⟩) ⟨[], false⟩).rle).out = .ok ⟨0, [3]⟩ ∧
      (⟨0, [3]⟩ : jsonRes) ≠ ⟨7, [3]⟩) ∧
    (¬ hasInnerZero [] ∧
      (RLE.UnmarshalJSON testEngine (.ok ⟨0, []⟩) ⟨[], false⟩).out = none ∧
      (RLE.MarshalJSON testEngine
        (RLE.UnmarshalJSON testEngine (.ok ⟨0, []⟩) ⟨[], false⟩).rle).out = .ok ⟨0, [0]⟩ ∧
      (⟨0, [0]⟩ : jsonRes) ≠ ⟨0, []⟩) := by
  refine ⟨⟨by decide, rfl, rfl, ?_, by decide⟩, by decide, rfl, ?_, by decide⟩
  · exact (MarshalJSON_ok testEngine ⟨[0, 3], false⟩ [⟨false, 3⟩] [3] rfl rfl
      (by simp [marshalRLE_cons])).1
  · exact (MarshalJSON_ok testEngine ⟨[], false⟩ [] [0] rfl rfl marshalRLE_nil).1

/-- C2, amended: for every JSON value `j` whose `RLE` array is non-empty and has
no zero entry at an index greater than 0, whose `Count` is a `uint64` equal to
the sum of the `RLE` entries at odd indices, and on whose rebuilt runs the
encoder succeeds, assuming the codec engine validates and decodes a buffer it
encoded back to the same run sequence, `UnmarshalJSON` succeeds and
`MarshalJSON` on the filled container yields `j` again: the same `RLE` array and
the same `Count`. -/
theorem unmarshal_marshal_identity (E : Engine) (rle : RLE) (j : jsonRes) (enc : List Nat)
    (hrt : ∀ runs buf, E.EncodeRuns ⟨runs⟩ [] = .ok buf →
      E.ValidateRLE buf = none ∧ E.DecodeRLE buf = .ok ⟨runs⟩)
    (hz : ¬ hasInnerZero j.RLE) (hne : j.RLE ≠ [])
    (hc : j.Count = oddIndexSum j.RLE) (h64 : j.Count < 2 ^ 64)
    (henc : E.EncodeRuns ⟨runsOfRLE j.RLE⟩ [] = .ok enc) :
    (rle.UnmarshalJSON E (.ok j)).out = none ∧
      ((rle.UnmarshalJSON E (.ok j)).rle.MarshalJSON E).out = .ok j := by
  have hu := unmarshalLoop_accept j.RLE hz
  obtain ⟨hval, hdec⟩ := hrt _ _ henc
  obtain ⟨hm, hs⟩ := marshalRLE_runsOfRLE j.RLE hz hne
  have hrle : (rle.UnmarshalJSON E (.ok j)).rle = { rle with buf := enc } := by
    simp only [RLE.UnmarshalJSON, hu, henc]
  have hout : (rle.UnmarshalJSON E (.ok j)).out = none := by
    simp only [RLE.UnmarshalJSON, hu, henc]
  refine ⟨hout, ?_⟩
  rw [hrle]
  have hv : (RLE.Validate E { rle with buf := enc }).out = none := by
    unfold RLE.Validate
    split
    · exact hval
    · rfl
  have h := (MarshalJSON_ok E { rle with buf := enc } _ _ hv hdec hm).1
  rw [h, hs, ← hc, Nat.mod_eq_of_lt h64]

theorem unmarshal_marshal_identity_witness :
    (RLE.UnmarshalJSON testEngine (.ok ⟨5, [0, 3, 5, 2]⟩) ⟨[], false⟩).out = none ∧
      (RLE.MarshalJSON testEngine
        (RLE.UnmarshalJSON testEngine (.ok ⟨5, [0, 3, 5, 2]⟩) ⟨[], false⟩).rle).out =
        .ok ⟨5, [0, 3, 5, 2]⟩ :=
  unmarshal_marshal_identity testEngine ⟨[], false⟩ ⟨5, [0, 3, 5, 2]⟩ [1, 3, 0, 5, 1, 2]
    (by
      intro runs buf h
      simp only [testEngine, List.nil_append, Except.ok.injEq] at h
      subst h
      simp [testEngine, testEngine_decode_encode])
    (by decide) (by decide) (by decide) (by decide) rfl

/-- C3: `FromBuf` fails if and only if the buffer is non-empty and the low two
bits of its first byte are not 0; the error it then returns wraps
`ErrWrongVersion`; the empty buffer is accepted; for a non-empty buffer the
outcome depends on the first byte only. -/
theorem FromBuf_error_iff (buf : List Nat) :
    ((∃ e, FromBuf buf = .error e) ↔ (buf ≠ [] ∧ buf.headD 0 &&& 3 ≠ 0)) ∧
    ((∃ e, FromBuf buf = .error e) ↔
      (FromBuf buf =
          .error (Err.wrap "could not create RLE+ for a buffer" Err.ErrWrongVersion) ∧
        (Err.wrap "could not create RLE+ for a buffer" Err.ErrWrongVersion).Is
          Err.ErrWrongVersion = true)) ∧
    FromBuf [] = .ok ⟨[], false⟩ ∧
    buf.headD 0 &&& 3 = buf.headD 0 % 4 ∧
    ∀ (b : Nat) (rest rest2 : List Nat),
      ((∃ e, FromBuf (b :: rest) = .error e) ↔ (∃ e, FromBuf (b :: rest2) = .error e)) := by
  have key : ∀ l : List Nat, (∃ e, FromBuf l = .error e) ↔ (l ≠ [] ∧ l.headD 0 &&& 3 ≠ 0) := by
    intro l
    unfold FromBuf
    cases l with
    | nil => simp
    | cons b rest =>
      by_cases hb : b &&& 3 = 0 <;> simp [hb, Version]
  refine ⟨key buf, ?_, rfl, ?_, ?_⟩
  · constructor
    · rintro ⟨e, he⟩
      refine ⟨?_, by decide⟩
      unfold FromBuf at he ⊢
      split at he
      · rename_i hc
        rw [if_pos hc]
      · cases he
    · rintro ⟨h, -⟩
      exact ⟨_, h⟩
  · exact Nat.and_pow_two_sub_one_eq_mod _ 2
  · intro b rest rest2
    rw [key, key]
    simp

/-- C4: for every container whose buffer validates and decodes to a run sequence
whose true-run lengths sum to less than `2^64`, `Count()` returns the sum of
the lengths of the true runs, and that number is the cardinality of the
represented set. -/
theorem Count_eq_card (E : Engine) (rle : RLE) (runs : List Run)
    (hv : (rle.Validate E).out = none) (hd : E.DecodeRLE rle.buf = .ok ⟨runs⟩)
    (hs : trueLenSum runs < 2 ^ 64) :
    (rle.Count E).out = .ok (trueLenSum runs) ∧
      (rle.Count E).out = .ok (positions runs).card := by
  have h := (Count_ok E rle ⟨runs⟩ hv hd).1
  rw [Nat.mod_eq_of_lt hs] at h
  refine ⟨h, ?_⟩
  rw [h, positions, card_positionsFrom]

theorem Count_eq_card_witness :
    (RLE.Count testEngine ⟨[1, 3, 0, 5, 1, 2], false⟩).out =
        .ok (trueLenSum [⟨true, 3⟩, ⟨false, 5⟩, ⟨true, 2⟩]) ∧
      (RLE.Count testEngine ⟨[1, 3, 0, 5, 1, 2], false⟩).out =
        .ok (positions [⟨true, 3⟩, ⟨false, 5⟩, ⟨true, 2⟩]).card :=
  Count_eq_card testEngine ⟨[1, 3, 0, 5, 1, 2], false⟩ [⟨true, 3⟩, ⟨false, 5⟩, ⟨true, 2⟩]
    rfl rfl (by decide)

/-- C5: for every container whose buffer validates and decodes to a non-empty run
sequence `r1, ..., rn`, `Count()` succeeds with some `c` and `MarshalJSON`
emits `Count = c` and `RLE = [r1.Len, ..., rn.Len]`, preceded by a single `0`
exactly when `r1.Val` is true. -/
theorem MarshalJSON_nonempty (E : Engine) (rle : RLE) (r1 : Run) (rest : List Run)
    (hv : (rle.Validate E).out = none) (hd : E.DecodeRLE rle.buf = .ok ⟨r1 :: rest⟩) :
    ∃ c, (rle.Count E).out = .ok c ∧
      (rle.MarshalJSON E).out =
        .ok { Count := c,
              RLE := (if r1.Val then [0] else []) ++ (r1 :: rest).map (fun r => r.Len) } :=
  ⟨_, (Count_ok E rle _ hv hd).1,
    (MarshalJSON_ok E rle _ _ hv hd (marshalRLE_cons r1 rest)).1⟩

theorem MarshalJSON_nonempty_witness :
    ∃ c, (RLE.Count testEngine ⟨[0, 5, 1, 1], false⟩).out = .ok c ∧
      (RLE.MarshalJSON testEngine ⟨[0, 5, 1, 1], false⟩).out =
        .ok { Count := c,
              RLE := (if (⟨false, 5⟩ : Run).Val then [0] else []) ++
                ([⟨false, 5⟩, ⟨true, 1⟩] : List Run).map (fun r => r.Len) } :=
  MarshalJSON_nonempty testEngine ⟨[0, 5, 1, 1], false⟩ ⟨false, 5⟩ [⟨true, 1⟩] rfl rfl

/-- C6, refuted as stated: a container whose buffer validates and decodes to the
single run `(false, 5)` (length at least 1) represents the empty set, so it
does not contain position 0, yet `MarshalJSON` emits `RLE = [5]`, not `[0]`. -/
theorem MarshalJSON_empty_set_not_zero :
    (RLE.Validate testEngine ⟨[0, 5], false⟩).out = none ∧
      testEngine.DecodeRLE [0, 5] = .ok ⟨[⟨false, 5⟩]⟩ ∧
      (∀ r ∈ [(⟨false, 5⟩ : Run)], 1 ≤ r.Len) ∧
      positions [⟨false, 5⟩] = ∅ ∧
      (RLE.MarshalJSON testEngine ⟨[0, 5], false⟩).out = .ok ⟨0, [5]⟩ ∧
      (⟨0, [5]⟩ : jsonRes) ≠ ⟨0, [0]⟩ := by
  refine ⟨rfl, rfl, by decide, by decide, ?_, by decide⟩
  exact (MarshalJSON_ok testEngine ⟨[0, 5], false⟩ [⟨false, 5⟩] [5] rfl rfl
    (by simp [marshalRLE_cons])).1

/-- C6, amended: for every container whose buffer validates and decodes to a run
sequence with every length at least 1, `MarshalJSON` succeeds; if the
represented set contains position 0 the first element of the emitted array is
0; if it does not contain position 0 the first element is not 0, unless the
run sequence has no runs at all, in which case the output is `RLE = [0]` with
`Count = 0`. -/
theorem MarshalJSON_leading_zero (E : Engine) (rle : RLE) (x : List Run)
    (hv : (rle.Validate E).out = none) (hd : E.DecodeRLE rle.buf = .ok ⟨x⟩)
    (hlen : ∀ r ∈ x, 1 ≤ r.Len) :
    ∃ j, (rle.MarshalJSON E).out = .ok j ∧
      (0 ∈ positions x → j.RLE.head? = some 0) ∧
      (0 ∉ positions x → x ≠ [] → ∃ v, j.RLE.head? = some v ∧ v ≠ 0) ∧
      (x = [] → j = ⟨0, [0]⟩) := by
  cases x with
  | nil =>
    refine ⟨_, (MarshalJSON_ok E rle [] [0] hv hd marshalRLE_nil).1, ?_, ?_, ?_⟩
    · intro _; rfl
    · intro _ h; exact absurd rfl h
    · intro _; simp [trueLenSum]
  | cons r rest =>
    have h1 : 1 ≤ r.Len := hlen r (by simp)
    have hz := zero_mem_positions_cons r rest h1
    refine ⟨_, (MarshalJSON_ok E rle _ _ hv hd (marshalRLE_cons r rest)).1, ?_, ?_, ?_⟩
    · intro h0
      simp [hz.1 h0]
    · intro h0 _
      have hval : r.Val = false := by
        cases hr : r.Val
        · rfl
        · exact absurd (hz.2 hr) h0
      refine ⟨r.Len, by simp [hval], by omega⟩
    · intro h; cases h

theorem MarshalJSON_leading_zero_witness :
    ∃ j, (RLE.MarshalJSON testEngine ⟨[1, 3, 0, 5, 1, 2], false⟩).out = .ok j ∧
      (0 ∈ positions [⟨true, 3⟩, ⟨false, 5⟩, ⟨true, 2⟩] → j.RLE.head? = some 0) ∧
      (0 ∉ positions [⟨true, 3⟩, ⟨false, 5⟩, ⟨true, 2⟩] →
        [(⟨true, 3⟩ : Run), ⟨false, 5⟩, ⟨true, 2⟩] ≠ [] → ∃ v, j.RLE.head? = some v ∧ v ≠ 0) ∧
      ([(⟨true, 3⟩ : Run), ⟨false, 5⟩, ⟨true, 2⟩] = [] → j = ⟨0, [0]⟩) :=
  MarshalJSON_leading_zero testEngine ⟨[1, 3, 0, 5, 1, 2], false⟩
    [⟨true, 3⟩, ⟨false, 5⟩, ⟨true, 2⟩] rfl rfl (by decide)

/-- C7: for every `RLE` array with no zero entry at an index greater than 0,
`UnmarshalJSON` calls the encoder exactly once, with an empty initial byte
prefix and with one run per non-zero entry, in order, the entry `v` at index
`i` giving `Run{Val: i is odd, Len: v}`; when the encoder succeeds the call
returns no error and the container's buffer is the buffer the encoder
returned, the validated flag being untouched. -/
theorem UnmarshalJSON_runs (E : Engine) (rle : RLE) (cnt : Nat) (arr : List Nat)
    (h : ¬ hasInnerZero arr) :
    (rle.UnmarshalJSON E (.ok ⟨cnt, arr⟩)).calls = [Call.EncodeRuns (runsOfRLE arr) []] ∧
      ∀ enc, E.EncodeRuns ⟨runsOfRLE arr⟩ [] = .ok enc →
        (rle.UnmarshalJSON E (.ok ⟨cnt, arr⟩)).out = none ∧
        (rle.UnmarshalJSON E (.ok ⟨cnt, arr⟩)).rle = ⟨enc, rle.validated⟩ := by
  have hu := unmarshalLoop_accept arr h
  constructor
  · simp only [RLE.UnmarshalJSON, hu]
    split <;> rfl
  · intro enc henc
    simp only [RLE.UnmarshalJSON, hu, henc, and_self]

theorem UnmarshalJSON_runs_witness :
    (RLE.UnmarshalJSON testEngine (.ok ⟨5, [0, 3, 5, 2]⟩) ⟨[9], false⟩).calls =
        [Call.EncodeRuns (runsOfRLE [0, 3, 5, 2]) []] ∧
      ∀ enc, testEngine.EncodeRuns ⟨runsOfRLE [0, 3, 5, 2]⟩ [] = .ok enc →
        (RLE.UnmarshalJSON testEngine (.ok ⟨5, [0, 3, 5, 2]⟩) ⟨[9], false⟩).out = none ∧
        (RLE.UnmarshalJSON testEngine (.ok ⟨5, [0, 3, 5, 2]⟩) ⟨[9], false⟩).rle =
          ⟨enc, false⟩ :=
  UnmarshalJSON_runs testEngine ⟨[9], false⟩ 5 [0, 3, 5, 2] (by decide)

/-- C8: for every parsed JSON value whose `RLE` array has a zero entry at some
index greater than 0, `UnmarshalJSON` returns the zero-run error, makes no
engine call (the encoder is not called) and leaves the container exactly as it
was; and that error is returned for no array without such an entry, so a zero
at index 0 alone never causes it. -/
theorem UnmarshalJSON_zero_run (E : Engine) (rle : RLE) (cnt : Nat) (arr : List Nat)
    (h : ∃ i, 0 < i ∧ arr[i]? = some 0) :
    (rle.UnmarshalJSON E (.ok ⟨cnt, arr⟩)).out = some ErrZeroRun ∧
      (rle.UnmarshalJSON E (.ok ⟨cnt, arr⟩)).calls = [] ∧
      (rle.UnmarshalJSON E (.ok ⟨cnt, arr⟩)).rle = rle ∧
      ∀ (cnt2 : Nat) (arr2 : List Nat), (¬ ∃ i, 0 < i ∧ arr2[i]? = some 0) →
        (rle.UnmarshalJSON E (.ok ⟨cnt2, arr2⟩)).out ≠ some ErrZeroRun := by
  have hu := unmarshalLoop_reject arr ((hasInnerZero_iff_index arr).2 h)
  refine ⟨?_, ?_, ?_, ?_⟩
  · simp only [RLE.UnmarshalJSON, hu]
  · simp only [RLE.UnmarshalJSON, hu]
  · simp only [RLE.UnmarshalJSON, hu]
  · intro cnt2 arr2 h2
    have hu2 := unmarshalLoop_accept arr2 (fun hz => h2 ((hasInnerZero_iff_index arr2).1 hz))
    simp only [RLE.UnmarshalJSON, hu2]
    split <;> simp [ErrZeroRun]

theorem UnmarshalJSON_zero_run_witness :
    (RLE.UnmarshalJSON testEngine (.ok ⟨3, [2, 0, 3]⟩) ⟨[9], false⟩).out = some ErrZeroRun ∧
      (RLE.UnmarshalJSON testEngine (.ok ⟨3, [2, 0, 3]⟩) ⟨[9], false⟩).calls = [] ∧
      (RLE.UnmarshalJSON testEngine (.ok ⟨3, [2, 0, 3]⟩) ⟨[9], false⟩).rle = ⟨[9], false⟩ ∧
      ∀ (cnt2 : Nat) (arr2 : List Nat), (¬ ∃ i, 0 < i ∧ arr2[i]? = some 0) →
        (RLE.UnmarshalJSON testEngine (.ok ⟨cnt2, arr2⟩) ⟨[9], false⟩).out ≠ some ErrZeroRun :=
  UnmarshalJSON_zero_run testEngine ⟨[9], false⟩ 3 [2, 0, 3] ⟨1, by decide, rfl⟩

/-- C9, evaluated on the code: on a container built by `FromBuf` whose buffer
passes the structural check, `Validate()` succeeds but leaves the validated
flag false, and a second `Validate()` invokes the structural check again: two
calls perform the check twice. -/
theorem Validate_success_not_cached (E : Engine) (buf : List Nat) (rle : RLE)
    (hf : FromBuf buf = .ok rle) (hok : E.ValidateRLE buf = none) :
    (rle.Validate E).out = none ∧
      (rle.Validate E).rle.validated = false ∧
      ((rle.Validate E).rle.Validate E).out = none ∧
      (rle.Validate E).calls ++ ((rle.Validate E).rle.Validate E).calls =
        [Call.ValidateRLE buf, Call.ValidateRLE buf] := by
  have hr : rle = ⟨buf, false⟩ := by
    unfold FromBuf at hf
    split at hf
    · cases hf
    · exact (Except.ok.inj hf).symm
  subst hr
  simp [RLE.Validate, hok]

theorem Validate_success_not_cached_witness :
    (RLE.Validate testEngine ⟨[], false⟩).out = none ∧
      (RLE.Validate testEngine ⟨[], false⟩).rle.validated = false ∧
      (RLE.Validate testEngine (RLE.Validate testEngine ⟨[], false⟩).rle).out = none ∧
      (RLE.Validate testEngine ⟨[], false⟩).calls ++
          (RLE.Validate testEngine (RLE.Validate testEngine ⟨[], false⟩).rle).calls =
        [Call.ValidateRLE [], Call.ValidateRLE []] :=
  Validate_success_not_cached testEngine [] ⟨[], false⟩ rfl rfl

/-- C10: for every container that is not validated and whose buffer the
structural check rejects with `err`, after any number `n` of `Validate()`
calls the container is unchanged (validated still false), and the next
`Validate()` runs the check again, returns `err` and leaves the container
unchanged. -/
theorem Validate_failure_not_cached (E : Engine) (rle : RLE) (err : Err) (n : Nat)
    (hnv : rle.validated = false) (hrej : E.ValidateRLE rle.buf = some err) :
    (fun r : RLE => (r.Validate E).rle)^[n] rle = rle ∧
      (((fun r : RLE => (r.Validate E).rle)^[n] rle).Validate E).out = some err ∧
      (((fun r : RLE => (r.Validate E).rle)^[n] rle).Validate E).calls =
        [Call.ValidateRLE rle.buf] ∧
      (((fun r : RLE => (r.Validate E).rle)^[n] rle).Validate E).rle = rle ∧
      (((fun r : RLE => (r.Validate E).rle)^[n] rle).Validate E).rle.validated = false := by
  have hit : (fun r : RLE => (r.Validate E).rle)^[n] rle = rle := by
    induction n with
    | zero => rfl
    | succ k ih => rw [Function.iterate_succ_apply', ih, Validate_rle]
  rw [hit]
  refine ⟨rfl, ?_, ?_, Validate_rle E rle, ?_⟩
  · simp [RLE.Validate, hnv, hrej]
  · simp [RLE.Validate, hnv]
  · rw [Validate_rle]; exact hnv

theorem Validate_failure_not_cached_witness :
    (fun r : RLE => (r.Validate testEngine).rle)^[2] ⟨[0], false⟩ = ⟨[0], false⟩ ∧
      (((fun r : RLE => (r.Validate testEngine).rle)^[2] ⟨[0], false⟩).Validate testEngine).out =
        some Err.ErrDecode ∧
      (((fun r : RLE => (r.Validate testEngine).rle)^[2] ⟨[0], false⟩).Validate
        testEngine).calls = [Call.ValidateRLE [0]] ∧
      (((fun r : RLE => (r.Validate testEngine).rle)^[2] ⟨[0], false⟩).Validate testEngine).rle =
        ⟨[0], false⟩ ∧
      (((fun r : RLE => (r.Validate testEngine).rle)^[2] ⟨[0], false⟩).Validate
        testEngine).rle.validated = false :=
  Validate_failure_not_cached testEngine ⟨[0], false⟩ Err.ErrDecode 2 rfl rfl

/-! ## Further lemmas: error chains and frame of the read operations -/

theorem Err.Is_self (e : Err) : e.Is e = true := by
  cases e <;> simp [Err.Is]

theorem Err.Is_wrap (msg : String) (e : Err) : (Err.wrap msg e).Is e = true := by
  simp [Err.Is, Err.Is_self]

theorem RunIterator_rle (E : Engine) (rle : RLE) : (rle.RunIterator E).rle = rle := by
  have hr := Validate_rle E rle
  unfold RLE.RunIterator
  simp only
  split
  · exact hr
  · split <;> exact hr

theorem Count_rle (E : Engine) (rle : RLE) : (rle.Count E).rle = rle := by
  have hr := RunIterator_rle E rle
  unfold RLE.Count
  simp only
  split <;> exact hr

theorem MarshalJSON_rle (E : Engine) (rle : RLE) : (rle.MarshalJSON E).rle = rle := by
  have hr := RunIterator_rle E rle
  have hc := Count_rle E rle
  unfold RLE.MarshalJSON
  simp only
  split
  · exact hr
  · rw [hr]
    split
    · exact hc
    · split <;> exact hc

/-- C11: `RunIterator()` returns an iterator if and only if `Validate()` succeeds
and the engine's decode of the buffer succeeds, and the iterator is the one
decode produced, decode being called after the validation; when validation
fails the result is an error wrapping the validation error, with no iterator
and no decode call; when decode fails the result is an error wrapping the
decode error, with no iterator. -/
theorem RunIterator_fail_fast (E : Engine) (rle : RLE) :
    (∀ it, (rle.RunIterator E).out = .ok it ↔
      ((rle.Validate E).out = none ∧ E.DecodeRLE rle.buf = .ok it)) ∧
    (∀ it, (rle.RunIterator E).out = .ok it →
      (rle.RunIterator E).calls = (rle.Validate E).calls ++ [Call.DecodeRLE rle.buf]) ∧
    (∀ err, (rle.Validate E).out = some err →
      (rle.RunIterator E).out = .error (Err.wrap "validation failed" err) ∧
      (Err.wrap "validation failed" err).Is err = true ∧
      (rle.RunIterator E).calls = (rle.Validate E).calls ∧
      ∀ b, Call.DecodeRLE b ∉ (rle.RunIterator E).calls) ∧
    (∀ err, (rle.Validate E).out = none → E.DecodeRLE rle.buf = .error err →
      (rle.RunIterator E).out = .error (Err.wrap "decoding RLE" err) ∧
      (Err.wrap "decoding RLE" err).Is err = true) := by
  have hr := Validate_rle E rle
  refine ⟨?_, ?_, ?_, ?_⟩
  · intro it
    cases hv : (rle.Validate E).out with
    | some err => simp [RLE.RunIterator, hv]
    | none =>
      cases hd : E.DecodeRLE rle.buf with
      | error err => simp [RLE.RunIterator, hv, hr, hd]
      | ok src => simp [RLE.RunIterator, hv, hr, hd]
  · intro it
    cases hv : (rle.Validate E).out with
    | some err => simp [RLE.RunIterator, hv]
    | none =>
      cases hd : E.DecodeRLE rle.buf with
      | error err => simp [RLE.RunIterator, hv, hr, hd]
      | ok src => simp [RLE.RunIterator, hv, hr, hd]
  · intro err hv
    refine ⟨by simp [RLE.RunIterator, hv], Err.Is_wrap _ _, by simp [RLE.RunIterator, hv], ?_⟩
    intro b hb
    have hc : (rle.RunIterator E).calls = (rle.Validate E).calls := by
      simp [RLE.RunIterator, hv]
    rw [hc] at hb
    unfold RLE.Validate at hb
    split at hb <;> simp at hb
  · intro err hv hd
    exact ⟨by simp [RLE.RunIterator, hv, hr, hd], Err.Is_wrap _ _⟩

/-- C12: for every container whose buffer validates and decodes to a run sequence
with no runs at all, `MarshalJSON` emits `RLE = [0]` and `Count = 0`. -/
theorem MarshalJSON_no_runs (E : Engine) (rle : RLE)
    (hv : (rle.Validate E).out = none) (hd : E.DecodeRLE rle.buf = .ok ⟨[]⟩) :
    (rle.MarshalJSON E).out = .ok { Count := 0, RLE := [0] } :=
  (MarshalJSON_ok E rle [] [0] hv hd marshalRLE_nil).1

theorem MarshalJSON_no_runs_witness :
    (RLE.MarshalJSON testEngine ⟨[], false⟩).out = .ok { Count := 0, RLE := [0] } :=
  MarshalJSON_no_runs testEngine ⟨[], false⟩ rfl rfl

/-- C13: the documented example: a container whose buffer validates and decodes
to the runs `(true, 3), (false, 5), (true, 2)`, which represent the set
`{0, 1, 2, 8, 9}`, is marshalled as `RLE = [0, 3, 5, 2]` with `Count = 5`. -/
theorem MarshalJSON_documented_example (E : Engine) (rle : RLE)
    (hv : (rle.Validate E).out = none)
    (hd : E.DecodeRLE rle.buf = .ok ⟨[⟨true, 3⟩, ⟨false, 5⟩, ⟨true, 2⟩]⟩) :
    positions [⟨true, 3⟩, ⟨false, 5⟩, ⟨true, 2⟩] = {0, 1, 2, 8, 9} ∧
      (rle.MarshalJSON E).out = .ok { Count := 5, RLE := [0, 3, 5, 2] } := by
  refine ⟨by decide, ?_⟩
  have h := (MarshalJSON_ok E rle _ _ hv hd (marshalRLE_cons ⟨true, 3⟩ [⟨false, 5⟩, ⟨true, 2⟩])).1
  rw [h]
  simp [trueLenSum]

theorem MarshalJSON_documented_example_witness :
    positions [⟨true, 3⟩, ⟨false, 5⟩, ⟨true, 2⟩] = {0, 1, 2, 8, 9} ∧
      (RLE.MarshalJSON testEngine ⟨[1, 3, 0, 5, 1, 2], false⟩).out =
        .ok { Count := 5, RLE := [0, 3, 5, 2] } :=
  MarshalJSON_documented_example testEngine ⟨[1, 3, 0, 5, 1, 2], false⟩ rfl rfl

/-- C14: for every buffer `buf` that `FromBuf` accepts, the returned container
holds exactly `buf` and is not validated: `Bytes()` returns `buf` and the
validated flag is false. -/
theorem FromBuf_Bytes (buf : List Nat) (rle : RLE) (hf : FromBuf buf = .ok rle) :
    rle.Bytes.out = buf ∧ rle.validated = false ∧ rle = ⟨buf, false⟩ := by
  have hr : rle = ⟨buf, false⟩ := by
    unfold FromBuf at hf
    split at hf
    · cases hf
    · exact (Except.ok.inj hf).symm
  subst hr
  exact ⟨rfl, rfl, rfl⟩

theorem FromBuf_Bytes_witness :
    (RLE.Bytes ⟨[4, 7, 255], false⟩).out = [4, 7, 255] ∧
      (⟨[4, 7, 255], false⟩ : RLE).validated = false ∧
      (⟨[4, 7, 255], false⟩ : RLE) = ⟨[4, 7, 255], false⟩ :=
  FromBuf_Bytes [4, 7, 255] ⟨[4, 7, 255], false⟩ rfl

/-! ## Further lemmas: shape of the rebuilt runs -/

theorem runsFrom_len_pos (l : List Nat) (val : Bool) (h : 0 ∉ l) :
    ∀ r ∈ runsFrom val l, 1 ≤ r.Len := by
  induction l generalizing val with
  | nil => simp [runsFrom]
  | cons v rest ih =>
    have hv : v ≠ 0 := fun hv => h (by simp [hv])
    have hr : 0 ∉ rest := fun hr => h (by simp [hr])
    intro r hmem
    simp only [runsFrom, List.mem_cons] at hmem
    rcases hmem with rfl | hmem
    · simp only; omega
    · exact ih _ hr r hmem

theorem runsFrom_alternating (l : List Nat) (val : Bool) : Alternating (runsFrom val l) := by
  induction l generalizing val with
  | nil => rfl
  | cons v rest ih =>
    cases rest with
    | nil => rfl
    | cons w rest2 =>
      have h2 := ih (!val)
      simp only [runsFrom, Alternating, alternatingB, Bool.and_eq_true] at h2 ⊢
      refine ⟨?_, h2⟩
      cases val <;> rfl

theorem oddIndexSum_marshal (r : Run) (rest : List Run) (halt : Alternating (r :: rest)) :
    oddIndexSum ((if r.Val then [0] else []) ++ (r :: rest).map (fun q => q.Len)) =
      trueLenSum (r :: rest) := by
  have hx := runsFrom_map_len (r :: rest) r.Val halt (by simp)
  have hs := trueLenSum_runsFrom ((r :: rest).map (fun q => q.Len))
  cases hval : r.Val
  · rw [hval] at hx
    rw [hx] at hs
    simpa using hs.1.symm
  · rw [hval] at hx
    rw [hx] at hs
    simp only [if_true, List.singleton_append, List.map_cons, oddIndexSum]
    simpa using hs.2.symm

theorem marshalRLE_accepted (x : List Run) (hlen : ∀ r ∈ x, 1 ≤ r.Len) :
    ∃ arr, marshalRLE ⟨x⟩ = .ok arr ∧ arr ≠ [] ∧ ¬ hasInnerZero arr := by
  have hz : 0 ∉ x.map (fun r => r.Len) := by
    intro h
    obtain ⟨r, hr, h0⟩ := List.mem_map.1 h
    have := hlen r hr
    omega
  cases x with
  | nil => exact ⟨[0], marshalRLE_nil, by simp, by decide⟩
  | cons r rest =>
    refine ⟨_, marshalRLE_cons r rest, ?_, ?_⟩
    · cases hval : r.Val <;> simp
    · cases hval : r.Val
      · simp only [hasInnerZero, Bool.false_eq_true, if_false, List.nil_append, List.map_cons,
          List.tail_cons]
        intro h
        exact hz (by simp [h])
      · simpa [hasInnerZero] using hz

/-- C15: `UnmarshalJSON` ignores the `Count` field: two parsed JSON values with
the same `RLE` array give the same outcome (same returned error, same
container, same engine calls) whatever their `Count` values; and when the array
is accepted and the encoder succeeds no error is raised, whatever `Count` is. -/
theorem UnmarshalJSON_ignores_Count (E : Engine) (rle : RLE) (c1 c2 : Nat) (arr : List Nat) :
    (rle.UnmarshalJSON E (.ok ⟨c1, arr⟩)).out = (rle.UnmarshalJSON E (.ok ⟨c2, arr⟩)).out ∧
    (rle.UnmarshalJSON E (.ok ⟨c1, arr⟩)).rle = (rle.UnmarshalJSON E (.ok ⟨c2, arr⟩)).rle ∧
    (rle.UnmarshalJSON E (.ok ⟨c1, arr⟩)).calls = (rle.UnmarshalJSON E (.ok ⟨c2, arr⟩)).calls ∧
    ∀ enc, ¬ hasInnerZero arr → E.EncodeRuns ⟨runsOfRLE arr⟩ [] = .ok enc →
      (rle.UnmarshalJSON E (.ok ⟨c1, arr⟩)).out = none ∧
      (rle.UnmarshalJSON E (.ok ⟨c1, arr⟩)).rle.buf = enc := by
  refine ⟨rfl, rfl, rfl, ?_⟩
  intro enc hz henc
  have hu := unmarshalLoop_accept arr hz
  simp only [RLE.UnmarshalJSON, hu, henc, and_self]

/-- C16: the read operations never change the owned buffer: after `Bytes()`,
`Validate()`, `RunIterator()`, `Count()` or `MarshalJSON()`, whatever the
outcome, `Bytes()` returns the same buffer as before the call. -/
theorem read_operations_keep_buffer (E : Engine) (rle : RLE) :
    rle.Bytes.rle.Bytes.out = rle.Bytes.out ∧
    (rle.Validate E).rle.Bytes.out = rle.Bytes.out ∧
    (rle.RunIterator E).rle.Bytes.out = rle.Bytes.out ∧
    (rle.Count E).rle.Bytes.out = rle.Bytes.out ∧
    (rle.MarshalJSON E).rle.Bytes.out = rle.Bytes.out := by
  rw [Validate_rle, RunIterator_rle, Count_rle, MarshalJSON_rle]
  exact ⟨rfl, rfl, rfl, rfl, rfl⟩

/-- C17: for every `RLE` array with no zero entry at an index greater than 0 for
which the encoder fails with `err` on the rebuilt run sequence, `UnmarshalJSON`
fails with an error that wraps `err`, and the container (its buffer in
particular) is left unchanged. -/
theorem UnmarshalJSON_encode_error (E : Engine) (rle : RLE) (cnt : Nat) (arr : List Nat)
    (err : Err) (h : ¬ hasInnerZero arr)
    (henc : E.EncodeRuns ⟨runsOfRLE arr⟩ [] = .error err) :
    (rle.UnmarshalJSON E (.ok ⟨cnt, arr⟩)).out = some (Err.wrap "encoding runs" err) ∧
      (Err.wrap "encoding runs" err).Is err = true ∧
      (rle.UnmarshalJSON E (.ok ⟨cnt, arr⟩)).rle.Bytes.out = rle.Bytes.out ∧
      (rle.UnmarshalJSON E (.ok ⟨cnt, arr⟩)).rle = rle := by
  have hu := unmarshalLoop_accept arr h
  refine ⟨?_, Err.Is_wrap _ _, ?_, ?_⟩ <;> simp only [RLE.UnmarshalJSON, hu, henc]

theorem UnmarshalJSON_encode_error_witness :
    (RLE.UnmarshalJSON failingEncoderEngine (.ok ⟨3, [0, 3]⟩) ⟨[9], false⟩).out =
        some (Err.wrap "encoding runs" (Err.engine 1)) ∧
      (Err.wrap "encoding runs" (Err.engine 1)).Is (Err.engine 1) = true ∧
      (RLE.UnmarshalJSON failingEncoderEngine (.ok ⟨3, [0, 3]⟩) ⟨[9], false⟩).rle.Bytes.out =
        (RLE.Bytes ⟨[9], false⟩).out ∧
      (RLE.UnmarshalJSON failingEncoderEngine (.ok ⟨3, [0, 3]⟩) ⟨[9], false⟩).rle =
        ⟨[9], false⟩ :=
  UnmarshalJSON_encode_error failingEncoderEngine ⟨[9], false⟩ 3 [0, 3] (Err.engine 1)
    (by decide) rfl

/-- C18: for every `RLE` array that `UnmarshalJSON` accepts (no zero entry at an
index greater than 0), the run sequence handed to the encoder is canonical:
every run has `Len` at least 1, every two adjacent runs have opposite `Val`,
and the first run, when there is one, has `Val` true if and only if the array
starts with 0. -/
theorem UnmarshalJSON_runs_canonical (E : Engine) (rle : RLE) (cnt : Nat) (arr : List Nat)
    (h : ¬ hasInnerZero arr) :
    ∃ runs, (rle.UnmarshalJSON E (.ok ⟨cnt, arr⟩)).calls = [Call.EncodeRuns runs []] ∧
      (∀ r ∈ runs, 1 ≤ r.Len) ∧
      Alternating runs ∧
      ∀ r, runs.head? = some r → (r.Val = true ↔ arr.head? = some 0) := by
  have hu := unmarshalLoop_accept arr h
  refine ⟨runsOfRLE arr, ?_, ?_⟩
  · simp only [RLE.UnmarshalJSON, hu]
    split <;> rfl
  · cases arr with
    | nil => simp [runsOfRLE, Alternating, alternatingB]
    | cons v rest =>
      have hr : 0 ∉ rest := h
      rw [runsOfRLE_cons v rest hr]
      by_cases hv : v = 0
      · subst hv
        simp only [if_true, List.nil_append, List.head?_cons]
        refine ⟨runsFrom_len_pos rest true hr, runsFrom_alternating rest true, ?_⟩
        intro r hhead
        cases rest with
        | nil => simp [runsFrom] at hhead
        | cons w rest2 =>
          simp only [runsFrom, List.head?_cons, Option.some.injEq] at hhead
          subst hhead
          simp
      · simp only [hv, if_false, List.singleton_append, List.head?_cons, Option.some.injEq]
        refine ⟨?_, ?_, ?_⟩
        · intro r hmem
          rcases List.mem_cons.1 hmem with rfl | hmem
          · simp only; omega
          · exact runsFrom_len_pos rest true hr r hmem
        · exact runsFrom_alternating (v :: rest) false
        · intro r hhead
          subst hhead
          simp [hv]

theorem UnmarshalJSON_runs_canonical_witness :
    ∃ runs, (RLE.UnmarshalJSON testEngine (.ok ⟨5, [0, 3, 5, 2]⟩) ⟨[], false⟩).calls =
        [Call.EncodeRuns runs []] ∧
      (∀ r ∈ runs, 1 ≤ r.Len) ∧
      Alternating runs ∧
      ∀ r, runs.head? = some r → (r.Val = true ↔ [0, 3, 5, 2].head? = some 0) :=
  UnmarshalJSON_runs_canonical testEngine ⟨[], false⟩ 5 [0, 3, 5, 2] (by decide)

/-- C19: for every container whose buffer validates and decodes to a run sequence
with strictly alternating values whose true-run lengths sum to less than
`2^64`, `MarshalJSON` succeeds and the emitted `Count` equals the sum of the
entries of the emitted `RLE` array at odd indices. -/
theorem MarshalJSON_Count_agrees (E : Engine) (rle : RLE) (x : List Run)
    (hv : (rle.Validate E).out = none) (hd : E.DecodeRLE rle.buf = .ok ⟨x⟩)
    (halt : Alternating x) (hs : trueLenSum x < 2 ^ 64) :
    ∃ j, (rle.MarshalJSON E).out = .ok j ∧ j.Count = oddIndexSum j.RLE := by
  cases x with
  | nil =>
    exact ⟨_, (MarshalJSON_ok E rle [] [0] hv hd marshalRLE_nil).1, by simp [trueLenSum, oddIndexSum]⟩
  | cons r rest =>
    refine ⟨_, (MarshalJSON_ok E rle _ _ hv hd (marshalRLE_cons r rest)).1, ?_⟩
    simp only
    rw [oddIndexSum_marshal r rest halt, Nat.mod_eq_of_lt hs]

theorem MarshalJSON_Count_agrees_witness :
    ∃ j, (RLE.MarshalJSON testEngine ⟨[0, 5, 1, 1], false⟩).out = .ok j ∧
      j.Count = oddIndexSum j.RLE :=
  MarshalJSON_Count_agrees testEngine ⟨[0, 5, 1, 1], false⟩ [⟨false, 5⟩, ⟨true, 1⟩]
    rfl rfl (by decide) (by decide)

/-- C20: for every container whose buffer validates and decodes to a run sequence
with every length at least 1, `MarshalJSON` succeeds and the emitted `RLE`
array is non-empty and has no zero entry at an index greater than 0, so
`UnmarshalJSON` never answers it with the zero-run error. -/
theorem MarshalJSON_output_accepted (E : Engine) (rle rle2 : RLE) (x : List Run)
    (hv : (rle.Validate E).out = none) (hd : E.DecodeRLE rle.buf = .ok ⟨x⟩)
    (hlen : ∀ r ∈ x, 1 ≤ r.Len) :
    ∃ j, (rle.MarshalJSON E).out = .ok j ∧ j.RLE ≠ [] ∧
      (¬ ∃ i, 0 < i ∧ j.RLE[i]? = some 0) ∧
      (∃ runs, unmarshalLoop j.RLE 0 false [] = .ok runs) ∧
      (rle2.UnmarshalJSON E (.ok j)).out ≠ some ErrZeroRun := by
  obtain ⟨arr, ha, hne, hz⟩ := marshalRLE_accepted x hlen
  have hu := unmarshalLoop_accept arr hz
  refine ⟨_, (MarshalJSON_ok E rle x arr hv hd ha).1, hne, ?_, ⟨_, hu⟩, ?_⟩
  · exact fun hi => hz ((hasInnerZero_iff_index arr).2 hi)
  · simp only [RLE.UnmarshalJSON, hu]
    split <;> simp [ErrZeroRun]

theorem MarshalJSON_output_accepted_witness :
    ∃ j, (RLE.MarshalJSON testEngine ⟨[1, 3, 0, 5, 1, 2], false⟩).out = .ok j ∧ j.RLE ≠ [] ∧
      (¬ ∃ i, 0 < i ∧ j.RLE[i]? = some 0) ∧
      (∃ runs, unmarshalLoop j.RLE 0 false [] = .ok runs) ∧
      (RLE.UnmarshalJSON testEngine (.ok j) ⟨[], false⟩).out ≠ some ErrZeroRun :=
  MarshalJSON_output_accepted testEngine ⟨[1, 3, 0, 5, 1, 2], false⟩ ⟨[], false⟩
    [⟨true, 3⟩, ⟨false, 5⟩, ⟨true, 2⟩] rfl rfl (by decide)

end rlepluslazy
